import Mathlib

/-!
Shallow embedding of `src/main.rs` of `ecs-watch`, a watcher for AWS ECS
cluster task changes, together with proofs about its core functions.

Modelling conventions:
* Rust `f64` timestamps are modelled as exact rationals `ℚ`; `f64::round`
  (round half away from zero) and `as i64` / `as u32` casts (truncation
  toward zero, saturating) are modelled explicitly.
* `chrono::NaiveDateTime` is modelled as a pair of whole seconds (`Int`)
  and subsecond nanoseconds (`Nat`), ordered lexicographically, which
  matches `chrono`'s ordering on the values this program constructs.
* Rust `String` is modelled as `List Char`; `str::split` and `join` are
  modelled by `splitChar` / `joinChar`.
* `u64` arithmetic in `sleep_duration` is modelled with explicit wrapping
  modulo `2 ^ 64`, since the claim under study is about underflow.
* The ECS client boundary (`list_tasks`, `describe_tasks`) is modelled as
  data: a response for the list call and a response function for the
  describe call. Transport errors are opaque message values.
* Rust's `Vec::sort_by` is a stable sort; a stable sort by a total
  preorder is extensionally unique, so it is embedded as insertion sort
  (`List.insertionSort`), which is stable.
-/

namespace EcsWatch

/-- Rust `String` modelled as a list of characters. -/
abbrev Str := List Char

/-- Model of `chrono::NaiveDateTime`: whole seconds since the epoch plus
subsecond nanoseconds (`chrono` admits `nanos ≥ 10^9` to represent leap
seconds). -/
structure NaiveDateTime where
  secs : Int
  nanos : Nat
deriving DecidableEq

/-- `chrono`'s ordering on `NaiveDateTime`: lexicographic on
(seconds, nanoseconds). -/
def NaiveDateTime.le (a b : NaiveDateTime) : Prop :=
  a.secs < b.secs ∨ (a.secs = b.secs ∧ a.nanos ≤ b.nanos)

instance (a b : NaiveDateTime) : Decidable (a.le b) := by
  unfold NaiveDateTime.le
  exact inferInstance

/-- Truncation of a rational toward zero: Rust's `as i64` cast on `f64`. -/
def ratTrunc (q : ℚ) : Int :=
  if 0 ≤ q then ⌊q⌋ else -⌊-q⌋

/-- Rust `f64::round`: round to nearest, half away from zero. -/
def roundHalfAway (q : ℚ) : Int :=
  if 0 ≤ q then ⌊q + 1 / 2⌋ else -⌊-q + 1 / 2⌋

/-- Rust's saturating `as u32` cast from `f64` (here applied to an already
rounded integer value). -/
def u32sat (z : Int) : Nat :=
  if z < 0 then 0 else min z.toNat 4294967295

/-- Embedding of `naive_date_time` (main.rs:136-140): AWS timestamps are
floating point seconds at millisecond precision; truncate to whole seconds
and round the fractional part to the nearest millisecond. -/
def naive_date_time (timestamp : ℚ) : NaiveDateTime :=
  let seconds : Int := ratTrunc timestamp
  let milliseconds : Nat := u32sat (roundHalfAway (1000 * (timestamp - (seconds : ℚ))))
  ⟨seconds, 1000000 * milliseconds⟩

/-- Embedding of `newest_time` (main.rs:142-152): keep the present
timestamps, sort ascending (Rust `sort_by` with `partial_cmp`, a stable
sort), take the last (the maximum), falling back to `now` (whole seconds,
from `Utc::now().timestamp()`) when none are present, then convert. -/
def newest_time (now : Int) (times : List (Option ℚ)) : NaiveDateTime :=
  naive_date_time ((List.insertionSort (· ≤ ·) (times.filterMap id)).getLastD (now : ℚ))

/-- Embedding of `str::split(c)`: split a character list at every
occurrence of `c`; always returns at least one (possibly empty) segment. -/
def splitChar (c : Char) : Str → List Str
  | [] => [[]]
  | x :: xs =>
    if x = c then [] :: splitChar c xs
    else
      match splitChar c xs with
      | [] => [[x]]
      | h :: t => (x :: h) :: t

/-- Embedding of `Vec<&str>::join(c)`: interleave the separator between
segments. -/
def joinChar (c : Char) : List Str → Str
  | [] => []
  | [l] => l
  | l :: ls => l ++ c :: joinChar c ls

/-- Embedding of `task_version` (main.rs:155-163): the last
`/`-separated segment of the task definition ARN, or empty if absent. -/
def task_version (task_definition_arn : Option Str) : Str :=
  (splitChar '/' (task_definition_arn.getD [])).getLastD []

/-- Embedding of `short_image` (main.rs:166-177): if the image reference
contains a `/`, drop the first segment and rejoin the rest with `/`;
otherwise return it unchanged; empty if absent. -/
def short_image (image : Option Str) : Str :=
  match image with
  | some image =>
    if 1 < (splitChar '/' image).length then
      joinChar '/' ((splitChar '/' image).drop 1)
    else image
  | none => []

/-- The single field of `rusoto_ecs::Container` this program reads. -/
structure Container where
  image : Option Str
deriving DecidableEq

/-- Embedding of `images` (main.rs:180-187). -/
def images (containers : Option (List Container)) : List Str :=
  (containers.getD []).map (fun container => short_image container.image)

/-- The fields of `rusoto_ecs::Task` this program reads. -/
structure Task where
  connectivity_at : Option ℚ
  created_at : Option ℚ
  execution_stopped_at : Option ℚ
  pull_started_at : Option ℚ
  pull_stopped_at : Option ℚ
  started_at : Option ℚ
  last_status : Option Str
  task_definition_arn : Option Str
  containers : Option (List Container)
deriving DecidableEq

/-- Embedding of the `TaskSummary` struct (main.rs:60-67). -/
structure TaskSummary where
  date_time : NaiveDateTime
  last_status : Str
  task_version : Str
  images : List Str
deriving DecidableEq

/-- Embedding of the `Error` enum (main.rs:40-58); the underlying
service errors are kept as opaque message values. -/
inductive Error where
  | TaskListLookup (cluster_name : Str) (cause : Str)
  | TaskDescribe (cluster_name : Str) (cause : Str)
  | ClusterNotFound (cluster_name : Str)
deriving DecidableEq

/-- The ECS client boundary as data: the result of `list_tasks` (its
`task_arns` field, absent when the cluster does not exist) and the result
of `describe_tasks` (its `tasks` field) as a function of the requested
task ids. -/
structure EcsClient where
  list_tasks : Except Str (Option (List Str))
  describe_tasks : List Str → Except Str (Option (List Task))

/-- Embedding of `tasks` (main.rs:69-86): a transport failure becomes
`TaskListLookup`; a successful response with no `task_arns` list becomes
`ClusterNotFound`; otherwise the ids are returned. -/
def tasks (ecs_client : EcsClient) (cluster_name : Str) : Except Error (List Str) :=
  match ecs_client.list_tasks with
  | .error e => .error (.TaskListLookup cluster_name e)
  | .ok none => .error (.ClusterNotFound cluster_name)
  | .ok (some ts) => .ok ts

/-- The six lifecycle event timestamps passed to `newest_time`
(main.rs:208-215), in source order. -/
def taskTimes (task : Task) : List (Option ℚ) :=
  [task.connectivity_at, task.created_at, task.execution_stopped_at,
   task.pull_started_at, task.pull_stopped_at, task.started_at]

/-- The per-record mapping inside `task_summary` (main.rs:207-219). -/
def summarize_task (now : Int) (task : Task) : TaskSummary :=
  { date_time := newest_time now (taskTimes task)
    task_version := task_version task.task_definition_arn
    last_status := task.last_status.getD []
    images := images task.containers }

/-- The comparison `task_summary` sorts by (main.rs:221):
`a.date_time.partial_cmp(&b.date_time)`. -/
def tsLe (a b : TaskSummary) : Prop :=
  a.date_time.le b.date_time

instance : DecidableRel tsLe := by
  unfold DecidableRel tsLe
  exact inferInstance

/-- The pure core of `task_summary`: map every described task record to a
`TaskSummary` and stable-sort ascending by timestamp. -/
def task_summaries_of (now : Int) (records : List Task) : List TaskSummary :=
  List.insertionSort tsLe (records.map (summarize_task now))

/-- Embedding of `task_summary` (main.rs:189-223). -/
def task_summary (ecs_client : EcsClient) (cluster_name : Str) (now : Int) :
    Except Error (List TaskSummary) :=
  match tasks ecs_client cluster_name with
  | .error e => .error e
  | .ok ids =>
    match ecs_client.describe_tasks ids with
    | .error e => .error (.TaskDescribe cluster_name e)
    | .ok resp => .ok (task_summaries_of now (resp.getD []))

/-- The signed difference of two `NaiveDateTime`s in nanoseconds
(`chrono`'s `Sub` on the values this program constructs). -/
def ndtSubNanos (a b : NaiveDateTime) : Int :=
  (a.secs - b.secs) * 1000000000 + ((a.nanos : Int) - (b.nanos : Int))

/-- `chrono::Duration::hours(1)` in nanoseconds. -/
def oneHourNanos : Int := 3600 * 1000000000

/-- The look-ahead condition of `print_summary` (main.rs:102-104): the
line at `index` is underlined when a next task exists and its timestamp is
at least one hour past the current one. -/
def emphasized (summary : List TaskSummary) (index : Nat) (task : TaskSummary) : Bool :=
  match summary.get? (index + 1) with
  | some next => decide (oneHourNanos ≤ ndtSubNanos next.date_time task.date_time)
  | none => false

/-- Embedding of the observable output of `print_summary`
(main.rs:90-110): one entry per task, in order, paired with whether its
line is rendered underlined. -/
def print_summary (summary : List TaskSummary) : List (TaskSummary × Bool) :=
  summary.enum.map (fun p => (p.2, emphasized summary p.1 p.2))

/-- Wrapping `u64` arithmetic. -/
def wrap64 (n : Int) : Nat :=
  (n % (18446744073709551616 : Int)).toNat

/-- Embedding of `sleep_duration` (main.rs:112-118), in milliseconds:
`1000 * seconds - now_millis` in `u64` arithmetic, where `now_millis` is
the current subsecond offset. -/
def sleep_duration (seconds : Nat) (now_millis : Nat) : Nat :=
  wrap64 ((wrap64 (1000 * (seconds : Int)) : Int) - (now_millis : Int))

/-- A snapshot: the ordered summary list of one poll cycle. -/
abbrev Snapshot := List TaskSummary

/-- Embedding of the loop state of `watch` (main.rs:120-133) after `n`
iterations, given the snapshot fetched at each iteration: the stored
`old_summary` together with the list of snapshots printed so far. The
first snapshot is printed unconditionally; afterwards a fetched snapshot
is printed, and stored, exactly when it differs from the stored one. -/
def watchState (fetch : Nat → Snapshot) : Nat → Snapshot × List Snapshot
  | 0 => (fetch 0, [fetch 0])
  | n + 1 =>
    if (watchState fetch n).1 ≠ fetch (n + 1) then
      (fetch (n + 1), (watchState fetch n).2 ++ [fetch (n + 1)])
    else watchState fetch n

/-! ### Concrete fixtures used by witnesses -/

/-- A concrete summary at the epoch. -/
def sampleTask0 : TaskSummary := ⟨⟨0, 0⟩, [], [], []⟩

/-- A concrete summary exactly one hour later. -/
def sampleTaskLate : TaskSummary := ⟨⟨3600, 0⟩, [], [], []⟩

/-- A fetch schedule whose snapshot changes after the first iteration. -/
def sampleFetch : Nat → Snapshot := fun n => if n = 0 then [] else [sampleTask0]

/-- A client whose cluster does not exist (`task_arns` absent). -/
def clientNoCluster : EcsClient := ⟨.ok none, fun _ => .ok none⟩

/-- A client whose cluster exists but has no tasks. -/
def clientEmptyCluster : EcsClient := ⟨.ok (some []), fun _ => .ok none⟩

/-! ### Lemmas about `splitChar` and `joinChar` -/

theorem splitChar_ne_nil (c : Char) (s : Str) : splitChar c s ≠ [] := by
  induction s with
  | nil => simp [splitChar]
  | cons x xs ih =>
    by_cases hx : x = c
    · simp [splitChar, hx]
    · simp only [splitChar, if_neg hx]
      cases h : splitChar c xs <;> simp

theorem splitChar_of_not_mem {c : Char} {s : Str} (h : c ∉ s) : splitChar c s = [s] := by
  induction s with
  | nil => rfl
  | cons x xs ih =>
    have hx : ¬ x = c := by
      rintro rfl
      exact h (List.mem_cons_self x xs)
    have hxs : c ∉ xs := fun hm => h (List.mem_cons_of_mem x hm)
    simp [splitChar, hx, ih hxs]

theorem splitChar_append (c : Char) (a b : Str) :
    splitChar c (a ++ c :: b) = splitChar c a ++ splitChar c b := by
  induction a with
  | nil => simp [splitChar]
  | cons x xs ih =>
    by_cases hx : x = c
    · simp [splitChar, hx, ih]
    · simp only [List.cons_append, splitChar, if_neg hx, List.append_eq]
      rw [ih]
      cases h : splitChar c xs with
      | nil => exact absurd h (splitChar_ne_nil c xs)
      | cons hd tl => simp [h]

theorem joinChar_splitChar (c : Char) (s : Str) : joinChar c (splitChar c s) = s := by
  induction s with
  | nil => rfl
  | cons x xs ih =>
    by_cases hx : x = c
    · subst hx
      simp only [splitChar, if_pos rfl]
      cases h : splitChar x xs with
      | nil => exact absurd h (splitChar_ne_nil x xs)
      | cons hd tl =>
        rw [h] at ih
        simp [joinChar, ih]
    · simp only [splitChar, if_neg hx]
      cases h : splitChar c xs with
      | nil => exact absurd h (splitChar_ne_nil c xs)
      | cons hd tl =>
        rw [h] at ih
        cases tl with
        | nil => simp_all [joinChar]
        | cons t ts => simp_all [joinChar]

/-! ### Claims C6 and C7: the identifier shorteners -/

/-- Claim C6: for every optional task-definition identifier string,
`task_version` returns the substring after the last `/` (the whole string
if it contains no `/`, hence in particular the empty string for the empty
string), and returns the empty string when the input is absent. -/
theorem c6_task_version (arn : Option Str) :
    (arn = none → task_version arn = []) ∧
    (∀ s, arn = some s → '/' ∉ s → task_version arn = s) ∧
    (∀ a b, arn = some (a ++ '/' :: b) → '/' ∉ b → task_version arn = b) := by
  refine ⟨?_, ?_, ?_⟩
  · rintro rfl
    rfl
  · rintro s rfl hs
    simp [task_version, splitChar_of_not_mem hs]
  · rintro a b rfl hb
    simp [task_version, splitChar_append, splitChar_of_not_mem hb,
      List.getLastD_eq_getLast?, List.getLast?_concat]

/-- Witness for C6 at the spec's example shape `"a/bc" ↦ "bc"`. -/
theorem c6_witness : task_version (some (['a'] ++ '/' :: ['b', 'c'])) = ['b', 'c'] :=
  (c6_task_version (some (['a'] ++ '/' :: ['b', 'c']))).2.2 ['a'] ['b', 'c'] rfl (by decide)

/-- Claim C7: for every optional image reference string, `short_image`
returns the empty string when the input is absent; when the input contains
at least one `/`, it drops only the first `/`-delimited segment and
rejoins the remaining segments with `/`; otherwise it returns the input
unchanged. -/
theorem c7_short_image (image : Option Str) :
    (image = none → short_image image = []) ∧
    (∀ s, image = some s → '/' ∉ s → short_image image = s) ∧
    (∀ a b, image = some (a ++ '/' :: b) → '/' ∉ a → short_image image = b) := by
  refine ⟨?_, ?_, ?_⟩
  · rintro rfl
    rfl
  · rintro s rfl hs
    simp [short_image, splitChar_of_not_mem hs]
  · rintro a b rfl ha
    have h1 : splitChar '/' (a ++ '/' :: b) = a :: splitChar '/' b := by
      rw [splitChar_append, splitChar_of_not_mem ha]
      rfl
    have h2 := splitChar_ne_nil '/' b
    have hlen : 1 < (a :: splitChar '/' b).length := by
      have := List.length_pos.mpr h2
      simp only [List.length_cons]
      omega
    simp only [short_image, h1, if_pos hlen, List.drop_succ_cons, List.drop_zero]
    exact joinChar_splitChar '/' b

/-- Witness for C7 at the spec's example shape `"d/n:1" ↦ "n:1"`. -/
theorem c7_witness : short_image (some (['d'] ++ '/' :: ['n', ':', '1'])) = ['n', ':', '1'] :=
  (c7_short_image (some (['d'] ++ '/' :: ['n', ':', '1']))).2.2 ['d'] ['n', ':', '1'] rfl
    (by decide)

/-! ### Claim C9: the sleep-duration computation -/

/-- Counterexample to claim C9 as stated: the claim quantifies over every
cadence of at least one second, but at a cadence of `2 ^ 61` seconds the
`u64` product `1000 * seconds` wraps around, so the computed duration is
not `1000 * seconds - now_millis`. -/
theorem c9_counterexample :
    ¬ sleep_duration 2305843009213693952 999 = 1000 * 2305843009213693952 - 999 := by
  decide

/-- Claim C9 (amended): for every cadence of at least one second whose
millisecond count fits in `u64`, and every subsecond offset
`now_millis ≤ 999`, the computed sleep duration is exactly
`1000 * seconds - now_millis`, hence positive, at most the cadence, and
sleeping it lands on a whole-second boundary
(`(now_millis + sleep) % 1000 = 0`); the subtraction does not underflow. -/
theorem c9_sleep_duration (seconds now_millis : Nat) (h1 : 1 ≤ seconds)
    (h2 : now_millis ≤ 999) (h3 : 1000 * seconds < 18446744073709551616) :
    sleep_duration seconds now_millis = 1000 * seconds - now_millis ∧
    0 < sleep_duration seconds now_millis ∧
    sleep_duration seconds now_millis ≤ 1000 * seconds ∧
    (now_millis + sleep_duration seconds now_millis) % 1000 = 0 := by
  have ha : (0 : Int) ≤ 1000 * (seconds : Int) := by positivity
  have hb : 1000 * (seconds : Int) < 18446744073709551616 := by exact_mod_cast h3
  have key : sleep_duration seconds now_millis = 1000 * seconds - now_millis := by
    simp only [sleep_duration, wrap64]
    rw [Int.emod_eq_of_lt ha hb, Int.toNat_of_nonneg ha,
      Int.emod_eq_of_lt (by omega) (by omega)]
    omega
  refine ⟨key, ?_, ?_, ?_⟩ <;> omega

/-- Witness for C9 at the cadence `watch` actually uses (2 seconds). -/
theorem c9_witness :
    sleep_duration 2 300 = 1000 * 2 - 300 ∧ 0 < sleep_duration 2 300 ∧
    sleep_duration 2 300 ≤ 1000 * 2 ∧ (300 + sleep_duration 2 300) % 1000 = 0 :=
  c9_sleep_duration 2 300 (by decide) (by decide) (by decide)

/-! ### Claims C1 and C10: the timestamp reducer -/

theorem ratTrunc_intCast (n : Int) : ratTrunc (n : ℚ) = n := by
  unfold ratTrunc
  split
  · exact Int.floor_intCast n
  · rw [← Int.cast_neg, Int.floor_intCast, neg_neg]

theorem naive_date_time_intCast (n : Int) : naive_date_time (n : ℚ) = ⟨n, 0⟩ := by
  unfold naive_date_time
  rw [ratTrunc_intCast]
  norm_num [roundHalfAway, u32sat]

theorem newest_time_of_all_none (now : Int) (times : List (Option ℚ))
    (h : ∀ o ∈ times, o = none) : newest_time now times = naive_date_time (now : ℚ) := by
  unfold newest_time
  have hnil : times.filterMap id = [] := by
    rw [List.filterMap_eq_nil]
    intro a ha
    rw [h a ha]
    rfl
  rw [hnil]
  rfl

/-- Claim C10: when every event timestamp is absent, the fallback uses the
current time truncated to whole seconds, so the resulting timestamp has a
zero subsecond component. -/
theorem c10_fallback_whole_seconds (now : Int) (times : List (Option ℚ))
    (h : ∀ o ∈ times, o = none) :
    (newest_time now times).secs = now ∧ (newest_time now times).nanos = 0 := by
  rw [newest_time_of_all_none now times h, naive_date_time_intCast]
  exact ⟨rfl, rfl⟩

/-- Witness for C10 at a concrete all-absent input. -/
theorem c10_witness :
    (newest_time 5 [none, none]).secs = 5 ∧ (newest_time 5 [none, none]).nanos = 0 :=
  c10_fallback_whole_seconds 5 [none, none] (by decide)

/-! ### Claim C2: the continuous watch loop -/

/-- Claim C2: in continuous mode the first snapshot is always rendered;
thereafter, on every iteration the freshly fetched snapshot is rendered if
and only if it differs (structural equality over all `TaskSummary`
fields, including order) from the stored snapshot, and the stored
snapshot is replaced exactly when a render occurs, so the stored snapshot
always equals the most recently rendered one. -/
theorem c2_watch (fetch : Nat → Snapshot) :
    (watchState fetch 0).2 = [fetch 0] ∧
    (∀ n, ((watchState fetch n).2).getLast? = some (watchState fetch n).1) ∧
    (∀ n,
      (fetch (n + 1) ≠ (watchState fetch n).1 →
        watchState fetch (n + 1) =
          (fetch (n + 1), (watchState fetch n).2 ++ [fetch (n + 1)])) ∧
      (fetch (n + 1) = (watchState fetch n).1 →
        watchState fetch (n + 1) = watchState fetch n)) := by
  refine ⟨rfl, ?_, ?_⟩
  · intro n
    induction n with
    | zero => rfl
    | succ n ih =>
      by_cases h : (watchState fetch n).1 = fetch (n + 1)
      · have hstep : watchState fetch (n + 1) = watchState fetch n := by
          simp only [watchState]
          rw [if_neg (not_not_intro h)]
        rw [hstep]
        exact ih
      · have hstep : watchState fetch (n + 1) =
            (fetch (n + 1), (watchState fetch n).2 ++ [fetch (n + 1)]) := by
          simp only [watchState]
          rw [if_pos h]
        rw [hstep]
        exact List.getLast?_concat _
  · intro n
    constructor
    · intro h
      simp only [watchState]
      rw [if_pos (Ne.symm h)]
    · intro h
      simp only [watchState]
      rw [if_neg (not_not_intro h.symm)]

/-- Witness for C2: with `sampleFetch` the second iteration differs from
the first, so it is rendered and stored. -/
theorem c2_witness :
    watchState sampleFetch 1 =
      (sampleFetch 1, (watchState sampleFetch 0).2 ++ [sampleFetch 1]) :=
  ((c2_watch sampleFetch).2.2 0).1 (by decide)

/-! ### Claim C8: the render emphasis rule -/

/-- Claim C8: `print_summary` renders the tasks in their given order and
unchanged; the line of task `i` is emphasized (underlined) if and only if
a task `i + 1` exists and its timestamp minus task `i`'s timestamp is at
least one hour. -/
theorem c8_print_summary (summary : List TaskSummary) :
    (print_summary summary).map Prod.fst = summary ∧
    ∀ i task, summary.get? i = some task →
      ∃ b, (print_summary summary).get? i = some (task, b) ∧
        (b = true ↔ ∃ next, summary.get? (i + 1) = some next ∧
          oneHourNanos ≤ ndtSubNanos next.date_time task.date_time) := by
  constructor
  · unfold print_summary
    rw [List.map_map]
    have hcomp : (Prod.fst ∘ fun p : Nat × TaskSummary => (p.2, emphasized summary p.1 p.2)) =
        Prod.snd := rfl
    rw [hcomp, List.enum_map_snd]
  · intro i task h
    refine ⟨emphasized summary i task, ?_, ?_⟩
    · unfold print_summary
      rw [List.get?_map, List.get?_enum, h]
      rfl
    · unfold emphasized
      cases hnext : summary.get? (i + 1) with
      | none => simp
      | some next => simp

/-- Witness for C8: in a two-task snapshot one hour apart, the first line
is emphasized. -/
theorem c8_witness :
    ∃ b, (print_summary [sampleTask0, sampleTaskLate]).get? 0 = some (sampleTask0, b) ∧
      (b = true ↔ ∃ next, ([sampleTask0, sampleTaskLate] : List TaskSummary).get? (0 + 1) =
        some next ∧ oneHourNanos ≤ ndtSubNanos next.date_time sampleTask0.date_time) :=
  (c8_print_summary [sampleTask0, sampleTaskLate]).2 0 sampleTask0 rfl

/-! ### Claim C4: cluster-not-found versus empty cluster -/

/-- Claim C4: when the list-tasks call succeeds but carries no task-ID
list at all, the lookup yields the distinct `ClusterNotFound` error
carrying the cluster name (not a transport error); a present but empty
task-ID list is not an error and yields an empty summary list. -/
theorem c4_not_found (ecs_client : EcsClient) (cluster_name : Str) (now : Int) :
    (ecs_client.list_tasks = .ok none →
      tasks ecs_client cluster_name = .error (.ClusterNotFound cluster_name) ∧
      task_summary ecs_client cluster_name now = .error (.ClusterNotFound cluster_name)) ∧
    (ecs_client.list_tasks = .ok (some []) →
      tasks ecs_client cluster_name = .ok [] ∧
      ∀ resp, ecs_client.describe_tasks [] = .ok resp → resp.getD [] = [] →
        task_summary ecs_client cluster_name now = .ok []) := by
  constructor
  · intro h
    have ht : tasks ecs_client cluster_name = .error (.ClusterNotFound cluster_name) := by
      unfold tasks
      rw [h]
    refine ⟨ht, ?_⟩
    unfold task_summary
    rw [ht]
  · intro h
    have ht : tasks ecs_client cluster_name = .ok [] := by
      unfold tasks
      rw [h]
    refine ⟨ht, ?_⟩
    intro resp hresp hnil
    unfold task_summary
    rw [ht]
    dsimp only
    rw [hresp]
    dsimp only
    rw [hnil]
    rfl

/-- Witness for C4: both branches at concrete clients. -/
theorem c4_witness :
    (tasks clientNoCluster [] = .error (.ClusterNotFound []) ∧
      task_summary clientNoCluster [] 0 = .error (.ClusterNotFound [])) ∧
    (tasks clientEmptyCluster [] = .ok [] ∧ task_summary clientEmptyCluster [] 0 = .ok []) := by
  refine ⟨(c4_not_found clientNoCluster [] 0).1 rfl, ?_⟩
  have h := (c4_not_found clientEmptyCluster [] 0).2 rfl
  exact ⟨h.1, h.2 none rfl rfl⟩

/-! ### Order facts about `NaiveDateTime` and the sort relation -/

theorem NaiveDateTime.le_refl (a : NaiveDateTime) : a.le a :=
  Or.inr ⟨rfl, Nat.le_refl _⟩

theorem NaiveDateTime.le_trans {a b c : NaiveDateTime} (h1 : a.le b) (h2 : b.le c) :
    a.le c := by
  unfold NaiveDateTime.le at h1 h2 ⊢
  omega

theorem NaiveDateTime.le_total (a b : NaiveDateTime) : a.le b ∨ b.le a := by
  unfold NaiveDateTime.le
  omega

instance : IsTotal TaskSummary tsLe :=
  ⟨fun a b => NaiveDateTime.le_total a.date_time b.date_time⟩

instance : IsTrans TaskSummary tsLe :=
  ⟨fun _ _ _ h1 h2 => NaiveDateTime.le_trans h1 h2⟩

/-! ### Stability of the timestamp sort -/

theorem filter_orderedInsert_ts (t : NaiveDateTime) (a : TaskSummary) (l : List TaskSummary) :
    (List.orderedInsert tsLe a l).filter (fun s => decide (s.date_time = t)) =
      if a.date_time = t then a :: l.filter (fun s => decide (s.date_time = t))
      else l.filter (fun s => decide (s.date_time = t)) := by
  induction l with
  | nil => by_cases hat : a.date_time = t <;> simp [hat]
  | cons y ys ih =>
    by_cases hr : tsLe a y
    · simp only [List.orderedInsert, if_pos hr]
      by_cases hat : a.date_time = t <;> simp [hat]
    · simp only [List.orderedInsert, if_neg hr]
      by_cases hat : a.date_time = t
      · have hyt : ¬ y.date_time = t := by
          intro hy
          apply hr
          unfold tsLe
          rw [hat, hy]
          exact NaiveDateTime.le_refl t
        simp [List.filter_cons, hyt, ih, hat]
      · by_cases hyt : y.date_time = t <;> simp [List.filter_cons, hyt, ih, hat]

theorem filter_insertionSort_ts (t : NaiveDateTime) (l : List TaskSummary) :
    (List.insertionSort tsLe l).filter (fun s => decide (s.date_time = t)) =
      l.filter (fun s => decide (s.date_time = t)) := by
  induction l with
  | nil => rfl
  | cons a l ih =>
    simp only [List.insertionSort]
    rw [filter_orderedInsert_ts, ih]
    by_cases hat : a.date_time = t <;> simp [hat, List.filter_cons]

/-! ### Claim C3: the summarizer sorts ascending and stably -/

/-- Claim C3: for every list of task records, the summarizer's output is
sorted ascending by the representative timestamp, is a permutation of the
per-record summaries in API order, and records with equal timestamps keep
their original relative order from the API response (stability, expressed
as filter-invariance for every fixed timestamp). -/
theorem c3_sorted_stable (now : Int) (records : List Task) :
    List.Sorted tsLe (task_summaries_of now records) ∧
    List.Perm (task_summaries_of now records) (records.map (summarize_task now)) ∧
    ∀ t : NaiveDateTime,
      (task_summaries_of now records).filter (fun s => decide (s.date_time = t)) =
        (records.map (summarize_task now)).filter (fun s => decide (s.date_time = t)) :=
  ⟨List.sorted_insertionSort tsLe _, List.perm_insertionSort tsLe _,
    fun t => filter_insertionSort_ts t _⟩

/-! ### Claim C1: the timestamp reducer picks the maximum -/

theorem naive_date_time_def (t : ℚ) :
    naive_date_time t =
      ⟨ratTrunc t, 1000000 * u32sat (roundHalfAway (1000 * (t - (ratTrunc t : ℚ))))⟩ :=
  rfl

theorem le_getLastD_of_sorted (l : List ℚ) (h : List.Sorted (· ≤ ·) l) :
    ∀ x ∈ l, ∀ d : ℚ, x ≤ l.getLastD d := by
  induction l with
  | nil =>
    intro x hx
    exact absurd hx (List.not_mem_nil x)
  | cons a l ih =>
    intro x hx d
    rw [List.getLastD_cons]
    rcases List.mem_cons.mp hx with rfl | hx2
    · cases l with
      | nil => simp
      | cons b l2 =>
        have hm := List.getLastD_mem_cons (b :: l2) x
        rcases List.mem_cons.mp hm with he | hm2
        · rw [he]
        · exact (List.sorted_cons.mp h).1 _ hm2
    · exact ih (List.sorted_cons.mp h).2 x hx2 a

theorem getLastD_mem_of_ne_nil (l : List ℚ) (h : l ≠ []) (d : ℚ) : l.getLastD d ∈ l := by
  rw [List.getLastD_eq_getLast?, List.getLast?_eq_getLast l h, Option.getD_some]
  exact List.getLast_mem h

/-- Claim C1: for every input list of optional event timestamps with at
least one present value, `newest_time` returns the numerically largest
present value converted by `naive_date_time`; when every value is absent
it falls back to the current wall-clock time; and for nonnegative inputs
`naive_date_time` rounds the fractional second to the nearest
millisecond (the result differs from the input by at most half a
millisecond and has a whole number of milliseconds). -/
theorem c1_newest_time (now : Int) (times : List (Option ℚ)) :
    (∀ t : ℚ, some t ∈ times → (∀ u : ℚ, some u ∈ times → u ≤ t) →
      newest_time now times = naive_date_time t) ∧
    ((∀ o ∈ times, o = none) → newest_time now times = naive_date_time (now : ℚ)) ∧
    (∀ t : ℚ, 0 ≤ t →
      1000000 ∣ (naive_date_time t).nanos ∧
      |((naive_date_time t).secs : ℚ) + ((naive_date_time t).nanos : ℚ) / 1000000000 - t| ≤
        1 / 2000) := by
  refine ⟨?_, fun h => newest_time_of_all_none now times h, ?_⟩
  · intro t ht hmax
    unfold newest_time
    congr 1
    have htf : t ∈ times.filterMap id := List.mem_filterMap.mpr ⟨some t, ht, rfl⟩
    have hperm : List.Perm (List.insertionSort (· ≤ ·) (times.filterMap id))
        (times.filterMap id) := List.perm_insertionSort _ _
    have hsorted : List.Sorted (· ≤ ·) (List.insertionSort (· ≤ ·) (times.filterMap id)) :=
      List.sorted_insertionSort _ _
    have hne : List.insertionSort (· ≤ ·) (times.filterMap id) ≠ [] := by
      intro h0
      rw [h0] at hperm
      rw [← hperm.nil_eq] at htf
      exact absurd htf (List.not_mem_nil t)
    have hmem : t ∈ List.insertionSort (· ≤ ·) (times.filterMap id) :=
      hperm.mem_iff.mpr htf
    have h1 : t ≤ (List.insertionSort (· ≤ ·) (times.filterMap id)).getLastD now :=
      le_getLastD_of_sorted _ hsorted t hmem now
    have h2 : (List.insertionSort (· ≤ ·) (times.filterMap id)).getLastD now ∈
        List.insertionSort (· ≤ ·) (times.filterMap id) :=
      getLastD_mem_of_ne_nil _ hne now
    have h3 : (List.insertionSort (· ≤ ·) (times.filterMap id)).getLastD now ≤ t := by
      apply hmax
      have h4 := hperm.subset h2
      rcases List.mem_filterMap.mp h4 with ⟨a, ha, hid⟩
      have : a = some ((List.insertionSort (· ≤ ·) (times.filterMap id)).getLastD now) := hid
      rw [← this]
      exact ha
    exact le_antisymm h3 h1
  · intro t ht0
    rw [naive_date_time_def t]
    have hsec : ratTrunc t = ⌊t⌋ := if_pos ht0
    rw [hsec]
    have hf0 : (0 : ℚ) ≤ t - (⌊t⌋ : ℚ) := sub_nonneg.mpr (Int.floor_le t)
    have hf1 : t - (⌊t⌋ : ℚ) < 1 := by
      have := Int.lt_floor_add_one t
      linarith
    have hq0 : (0 : ℚ) ≤ 1000 * (t - (⌊t⌋ : ℚ)) := by linarith
    have hround : roundHalfAway (1000 * (t - (⌊t⌋ : ℚ))) =
        ⌊1000 * (t - (⌊t⌋ : ℚ)) + 1 / 2⌋ := if_pos hq0
    have hrlo : (⌊1000 * (t - (⌊t⌋ : ℚ)) + 1 / 2⌋ : ℚ) ≤ 1000 * (t - (⌊t⌋ : ℚ)) + 1 / 2 :=
      Int.floor_le _
    have hrhi : 1000 * (t - (⌊t⌋ : ℚ)) + 1 / 2 <
        (⌊1000 * (t - (⌊t⌋ : ℚ)) + 1 / 2⌋ : ℚ) + 1 := Int.lt_floor_add_one _
    have hr0 : 0 ≤ ⌊1000 * (t - (⌊t⌋ : ℚ)) + 1 / 2⌋ := Int.floor_nonneg.mpr (by linarith)
    have hr1001 : ⌊1000 * (t - (⌊t⌋ : ℚ)) + 1 / 2⌋ < 1001 := Int.floor_lt.mpr (by
      push_cast
      linarith)
    have hsat : u32sat ⌊1000 * (t - (⌊t⌋ : ℚ)) + 1 / 2⌋ =
        (⌊1000 * (t - (⌊t⌋ : ℚ)) + 1 / 2⌋).toNat := by
      unfold u32sat
      rw [if_neg (not_lt.mpr hr0)]
      exact min_eq_left (by omega)
    rw [hround, hsat]
    constructor
    · exact Dvd.intro _ rfl
    · have hcast : (((⌊1000 * (t - (⌊t⌋ : ℚ)) + 1 / 2⌋).toNat : ℕ) : ℚ) =
          ((⌊1000 * (t - (⌊t⌋ : ℚ)) + 1 / 2⌋ : ℤ) : ℚ) := by
        rw [← Int.cast_natCast, Int.toNat_of_nonneg hr0]
      rw [abs_le]
      push_cast
      rw [hcast]
      constructor <;> linarith

/-- Witness for C1: the maximum of a mixed present/absent list is picked
and converted. -/
theorem c1_witness : newest_time 0 [some 1, none, some (1 / 2)] = naive_date_time 1 :=
  (c1_newest_time 0 [some 1, none, some (1 / 2)]).1 1 (by decide) (by
    intro u hu
    simp only [List.mem_cons, List.not_mem_nil, or_false] at hu
    rcases hu with h | h | h
    · rw [Option.some.inj h]
    · exact absurd h (Option.some_ne_none u)
    · rw [Option.some.inj h]
      norm_num)

/-! ### Claim C5: determinism of the summarizer -/

instance : DecidableEq (Except Error (List TaskSummary)) := fun a b =>
  match a, b with
  | .error x, .error y =>
    if h : x = y then isTrue (by rw [h]) else isFalse (fun hc => h (Except.error.inj hc))
  | .error _, .ok _ => isFalse (fun hc => Except.noConfusion hc)
  | .ok _, .error _ => isFalse (fun hc => Except.noConfusion hc)
  | .ok x, .ok y =>
    if h : x = y then isTrue (by rw [h]) else isFalse (fun hc => h (Except.ok.inj hc))

/-- A task record with every event timestamp absent. -/
def taskNoTimes : Task := ⟨none, none, none, none, none, none, none, none, none⟩

/-- A client returning one task whose timestamps are all absent. -/
def clientNoTimes : EcsClient := ⟨.ok (some [['t']]), fun _ => .ok (some [taskNoTimes])⟩

/-- A task record with one present event timestamp. -/
def taskWithTime : Task := ⟨none, some 5, none, none, none, none, none, none, none⟩

/-- A client returning one task with a present timestamp. -/
def clientWithTime : EcsClient := ⟨.ok (some [['t']]), fun _ => .ok (some [taskWithTime])⟩

/-- Counterexample to claim C5 as stated: against an unchanged backing
data set whose single task has no event timestamp at all, two runs at
different wall-clock times (`now = 0` and `now = 1`) produce different
summaries, because `newest_time` falls back to the current time. -/
theorem c5_counterexample :
    task_summary clientNoTimes [] 0 ≠ task_summary clientNoTimes [] 1 := by
  decide

/-- A task record has at least one present event timestamp. -/
def hasEventTime (task : Task) : Bool :=
  (taskTimes task).any (fun o => o.isSome)

theorem newest_time_of_mem (n1 n2 : Int) (times : List (Option ℚ))
    (h : times.filterMap id ≠ []) : newest_time n1 times = newest_time n2 times := by
  unfold newest_time
  congr 1
  have hs : List.insertionSort (· ≤ ·) (times.filterMap id) ≠ [] := by
    intro h0
    apply h
    have hlen := List.length_insertionSort (α := ℚ) (· ≤ ·) (times.filterMap id)
    rw [h0] at hlen
    exact List.length_eq_zero.mp hlen.symm
  rw [List.getLastD_eq_getLast?, List.getLastD_eq_getLast?, List.getLast?_eq_getLast _ hs,
    Option.getD_some, Option.getD_some]

/-- Claim C5 (amended): for every fixed backing data set in which every
described task record has at least one present event timestamp, the
summarizer is a deterministic function of the API data: two runs (at any
two wall-clock times) yield identical ordered `TaskSummary` sequences.
Records with no event timestamp at all are excluded because their
timestamp falls back to the wall-clock time of the run. -/
theorem c5_deterministic (ecs_client : EcsClient) (cluster_name : Str) (now1 now2 : Int)
    (h : ∀ ids resp, ecs_client.describe_tasks ids = .ok resp →
      ∀ task ∈ resp.getD [], hasEventTime task = true) :
    task_summary ecs_client cluster_name now1 = task_summary ecs_client cluster_name now2 := by
  unfold task_summary
  cases htasks : tasks ecs_client cluster_name with
  | error e => rfl
  | ok ids =>
    dsimp only
    cases hresp : ecs_client.describe_tasks ids with
    | error e => rfl
    | ok resp =>
      dsimp only
      have hmap : (resp.getD []).map (summarize_task now1) =
          (resp.getD []).map (summarize_task now2) := by
        apply List.map_congr_left
        intro task htask
        have hh := h ids resp hresp task htask
        have htimes : (taskTimes task).filterMap id ≠ [] := by
          intro h0
          rw [List.filterMap_eq_nil] at h0
          unfold hasEventTime at hh
          rw [List.any_eq_true] at hh
          rcases hh with ⟨o, ho, hso⟩
          have hnone := h0 o ho
          simp only [id_eq] at hnone
          rw [hnone] at hso
          simp at hso
        unfold summarize_task
        rw [newest_time_of_mem now1 now2 (taskTimes task) htimes]
      unfold task_summaries_of
      rw [hmap]

/-- Witness for C5: with a present timestamp, runs at `now = 0` and
`now = 7` agree. -/
theorem c5_witness : task_summary clientWithTime [] 0 = task_summary clientWithTime [] 7 :=
  c5_deterministic clientWithTime [] 0 7 (by
    intro ids resp hresp task htask
    have h1 : some [taskWithTime] = resp := Except.ok.inj hresp
    rw [← h1, Option.getD_some, List.mem_singleton] at htask
    rw [htask]
    decide)

end EcsWatch
